import Mathlib

/-!
# Verification of the BovadaEVBot EV engine and quality filter

Shallow embedding of the numeric core of the repository:
* `src/ev_engine.py` — odds conversion (`_american_to_prob`,
  `_prob_to_american`), the fair-line estimator (`calc_fair_line`),
  the edge calculator (`calc_ev`) and the opportunity selector
  (`select_top_bets`);
* `src/bovada_filter.py` — the quality filter pipeline
  (`_extract_bovada_data`, `_normalize_odds`, `_passes_quality_filters`).

Python floats are modelled by `ℚ` (all the arithmetic involved is exact
field arithmetic); a Python value that may be missing or non-numeric is
modelled by `Option ℚ`; a Python function that can raise (here only via
`ZeroDivisionError` in `_prob_to_american`) returns `Option _`, `none`
standing for the raised exception.
-/

namespace BovadaEV

/-- `EVEngine._american_to_prob` (src/ev_engine.py:237-242):
`100/(odds+100)` for positive odds, `|odds|/(|odds|+100)` otherwise.
Total: no branch can divide by zero. -/
def american_to_prob (odds : ℚ) : ℚ :=
  if 0 < odds then 100 / (odds + 100) else |odds| / (|odds| + 100)

/-- `EVEngine._prob_to_american` (src/ev_engine.py:244-249).  In Python the
branch `prob >= 0.5` computes `(prob/(1-prob)) * -100`, which raises
`ZeroDivisionError` when `prob = 1`; the other branch computes
`100/prob - 100`, raising when `prob = 0`.  `none` models the raise. -/
def prob_to_american (prob : ℚ) : Option ℚ :=
  if 1/2 ≤ prob then
    if prob = 1 then none else some (prob / (1 - prob) * (-100))
  else
    if prob = 0 then none else some (100 / prob - 100)

/-- `EVEngine.calc_ev` (src/ev_engine.py:144-163).  The two arguments model
Python values that may be non-numeric (`none`).  Returns `0` for
non-numeric or zero inputs, or when the implied probability of
`fair_odds` is not strictly inside `(0,1)`; otherwise
`fair_prob * profit_per_unit - (1 - fair_prob)`. -/
def calc_ev (bovada_odds fair_odds : Option ℚ) : ℚ :=
  match bovada_odds, fair_odds with
  | some b, some f =>
    if b = 0 ∨ f = 0 then 0
    else
      let fair_prob := american_to_prob f
      if fair_prob ≤ 0 ∨ 1 ≤ fair_prob then 0
      else
        let profit_per_unit := if 0 < b then b / 100 else 100 / |b|
        fair_prob * profit_per_unit - (1 - fair_prob)
  | _, _ => 0

/-! ## Game data model for `calc_fair_line` (src/ev_engine.py:76-142)

One raw game record from TheOddsAPI, as `calc_fair_line` reads it:
a list of bookmakers, each with a list of markets (`key`, `outcomes`),
each outcome carrying an optional `name`, `description` and `price`.
`price = none` models a missing or non-numeric `price` field. -/

structure EOutcome where
  name : Option String
  description : Option String
  price : Option ℚ
deriving DecidableEq, Repr

structure EMarket where
  key : String
  outcomes : List EOutcome
deriving DecidableEq, Repr

structure EBookmaker where
  title : Option String
  markets : List EMarket
deriving DecidableEq, Repr

structure Game where
  bookmakers : List EBookmaker
deriving DecidableEq, Repr

/-- The Python expression
`outcome.get("name") or outcome.get("description") or ""`:
the first truthy (non-`None`, non-empty) string, else `""`. -/
def effName (o : EOutcome) : String :=
  match o.name with
  | some s => if s ≠ "" then s else (o.description.getD "")
  | none => o.description.getD ""

/-- The per-bookmaker probability collection of src/ev_engine.py:92-99:
for each outcome with a numeric price and a truthy name, the implied
probability, kept only when strictly positive. -/
def bookProbs (m : EMarket) : List (String × ℚ) :=
  m.outcomes.filterMap fun o =>
    match o.price with
    | none => none
    | some pr =>
      let nm := effName o
      if nm = "" then none
      else
        let prob := american_to_prob pr
        if 0 < prob then some (nm, prob) else none

/-- `outcome_prob_accum.setdefault(name, []).append(norm_p)`
(src/ev_engine.py:108) on an insertion-ordered association list, the
shape of a Python `dict`. -/
def accumInsert (m : List (String × List ℚ)) (name : String) (p : ℚ) :
    List (String × List ℚ) :=
  match m with
  | [] => [(name, [p])]
  | (n, ps) :: rest =>
    if n = name then (n, ps ++ [p]) :: rest
    else (n, ps) :: accumInsert rest name p

/-- The flattened stream of `(name, norm_p)` contributions produced by the
nested loops of src/ev_engine.py:87-108: for every bookmaker, for every
market with key `"h2h"`, skip when `book_probs` is empty or its total is
`≤ 0`, otherwise emit each outcome's probability divided by the
bookmaker's total (overround removal), in source order. -/
def h2hContribs (g : Game) : List (String × ℚ) :=
  g.bookmakers.flatMap fun bk =>
    bk.markets.flatMap fun m =>
      if m.key = "h2h" then
        let bp := bookProbs m
        if bp.isEmpty then []
        else
          let tot := (bp.map (·.2)).sum
          if tot ≤ 0 then []
          else bp.map fun x => (x.1, x.2 / tot)
      else []

/-- `outcome_prob_accum` after the loops of src/ev_engine.py:86-108: each
contribution inserted in order with `setdefault`/`append` semantics. -/
def h2hAccum (g : Game) : List (String × List ℚ) :=
  (h2hContribs g).foldl (fun acc x => accumInsert acc x.1 x.2) []

/-- `averaged` (src/ev_engine.py:112-114): per outcome name, the mean of
its accumulated normalized probabilities, keeping the comprehension's
`if probs` guard. -/
def averagedOf (g : Game) : List (String × ℚ) :=
  ((h2hAccum g).filter fun x => !x.2.isEmpty).map
    fun x => (x.1, x.2.sum / (x.2.length : ℚ))

/-- `total_avg = sum(averaged.values())` (src/ev_engine.py:116). -/
def totalAvgOf (g : Game) : ℚ :=
  ((averagedOf g).map (·.2)).sum

/-- The price list collected for a spreads/totals market type
(src/ev_engine.py:129-138): every numeric price of every outcome of
every market with the given key, across all bookmakers, in order. -/
def marketPrices (g : Game) (key : String) : List ℚ :=
  g.bookmakers.flatMap fun bk =>
    bk.markets.flatMap fun m =>
      if m.key = key then m.outcomes.filterMap (·.price) else []

/-- The `fair_lines` dictionary built by `calc_fair_line`
(src/ev_engine.py:83-142).  `h2h`, when present, maps outcome names to
`(fair_prob, fair_odds)`, in insertion order; `spreads`/`totals`, when
present, hold the averaged price. -/
structure FairLine where
  h2h : Option (List (String × ℚ × ℚ))
  spreads : Option ℚ
  totals : Option ℚ
deriving DecidableEq, Repr

/-- The loop of src/ev_engine.py:119-124 building `h2h_outcomes`: for
each averaged entry, the renormalized probability and its American odds.
`none` models the `ZeroDivisionError` raised by `_prob_to_american` at a
fair probability of exactly 0 or 1, which aborts the whole call. -/
def convOutcomes : List (String × ℚ) → ℚ → Option (List (String × ℚ × ℚ))
  | [], _ => some []
  | x :: rest, totalAvg =>
    match prob_to_american (x.2 / totalAvg) with
    | none => none
    | some od =>
      match convOutcomes rest totalAvg with
      | none => none
      | some l => some ((x.1, x.2 / totalAvg, od) :: l)

/-- The `h2h_outcomes` block of src/ev_engine.py:110-126, including the
possibility that `_prob_to_american` raises (outer `none`).  The inner
`Option` is absence of the `"h2h"` key in `fair_lines`. -/
def h2hPart (g : Game) : Option (Option (List (String × ℚ × ℚ))) :=
  if (h2hAccum g).isEmpty then some none
  else
    let averaged := averagedOf g
    let totalAvg := (averaged.map (·.2)).sum
    if 0 < totalAvg then
      match convOutcomes averaged totalAvg with
      | none => none
      | some outs => some (if outs.isEmpty then none else some outs)
    else some none

/-- `EVEngine.calc_fair_line` (src/ev_engine.py:76-142).  `none` models an
uncaught `ZeroDivisionError` raised from `_prob_to_american` (the h2h
block runs before the spreads/totals loop, so a raise aborts the whole
call). -/
def calc_fair_line (g : Game) : Option FairLine :=
  match h2hPart g with
  | none => none
  | some h2hRes =>
    let sp := marketPrices g "spreads"
    let tt := marketPrices g "totals"
    some ⟨h2hRes,
      if sp.isEmpty then none else some (sp.sum / (sp.length : ℚ)),
      if tt.isEmpty then none else some (tt.sum / (tt.length : ℚ))⟩

/-! ## The opportunity selector `select_top_bets` (src/ev_engine.py:252-285)

A candidate dictionary, as the selector reads and compares it.  Every
candidate produced by `get_top_bets` (src/ev_engine.py:222-232) carries a
numeric `"ev"` key, so `ev` is a plain field (`r.get("ev", 0)` and
`r["ev"]` both read it); `fallback?` is the optional `"fallback"` key;
`payload` stands for the identity-relevant content of the remaining keys
(`game`, `market`, `outcome`, prices, …), so that structural equality of
`Cand` models Python's value equality of the dictionaries, which the
selector uses in `r not in out`. -/

structure Cand where
  ev : ℚ
  fallback? : Option Bool
  payload : ℕ
deriving DecidableEq, Repr

/-- `x.sort(key=lambda x: x["ev"], reverse=True)` /
`sorted(..., key=..., reverse=True)`: Python's stable sort, descending
by `ev`, modelled by the (stable) `List.mergeSort`. -/
def sortEvDesc (l : List Cand) : List Cand :=
  l.mergeSort fun a b => b.ev ≤ a.ev

/-- `{**r, "fallback": True}` (src/ev_engine.py:276). -/
def tagFallback (c : Cand) : Cand :=
  { c with fallback? := some true }

/-- The fill loop of src/ev_engine.py:271-277: walk `all_sorted`, break
once `out` holds `top_n` entries, skip any candidate already in `out`
(Python value equality), append the rest, tagging those whose `ev` is
below `min_edge`. -/
def fillLoop (minEdge : ℚ) (topN : ℕ) : List Cand → List Cand → List Cand
  | [], out => out
  | r :: rest, out =>
    if topN ≤ out.length then out
    else if r ∈ out then fillLoop minEdge topN rest out
    else
      fillLoop minEdge topN rest
        (out ++ [if r.ev < minEdge then tagFallback r else r])

/-- `select_top_bets` (src/ev_engine.py:252-285). -/
def select_top_bets (results : List Cand) (minEdge : ℚ) (topN : ℕ) :
    List Cand :=
  if results.isEmpty then []
  else
    let positive := sortEvDesc (results.filter fun r => minEdge ≤ r.ev)
    if topN ≤ positive.length then positive.take topN
    else sortEvDesc (fillLoop minEdge topN (sortEvDesc results) positive)

/-! ## Heap-level model of `select_top_bets` for the frame property

Python passes the candidate dictionaries by reference.  To state that the
function never mutates a caller's dictionary we re-run the same algorithm
over an explicit heap: `heap : List Cand` is the store (an address is an
index), the caller's list is a list of addresses, and the only
heap-affecting operation in the source, `r = {**r, "fallback": True}`,
is an allocation (append) — the source never assigns into an existing
dictionary.  Reads of a dangling address yield a default, which the
frame theorem does not depend on. -/

def heapGet (heap : List Cand) (a : ℕ) : Cand :=
  (heap.get? a).getD ⟨0, none, 0⟩

/-- The fill loop over the heap: value-equality membership (`r not in
out`) compares the pointed-to dictionaries; tagging allocates a fresh
dictionary at the end of the heap. -/
def fillLoopRef (minEdge : ℚ) (topN : ℕ) :
    List ℕ → List Cand → List ℕ → List Cand × List ℕ
  | [], heap, out => (heap, out)
  | a :: rest, heap, out =>
    if topN ≤ out.length then (heap, out)
    else if heapGet heap a ∈ out.map (heapGet heap) then
      fillLoopRef minEdge topN rest heap out
    else if (heapGet heap a).ev < minEdge then
      fillLoopRef minEdge topN rest (heap ++ [tagFallback (heapGet heap a)])
        (out ++ [heap.length])
    else fillLoopRef minEdge topN rest heap (out ++ [a])

/-- `select_top_bets` over the heap: same algorithm as
src/ev_engine.py:252-285, returning the final heap together with the
addresses of the selected dictionaries. -/
def selectTopBetsRef (heap : List Cand) (results : List ℕ)
    (minEdge : ℚ) (topN : ℕ) : List Cand × List ℕ :=
  if results.isEmpty then (heap, [])
  else
    let positive :=
      (results.filter fun a => minEdge ≤ (heapGet heap a).ev).mergeSort
        fun a b => (heapGet heap b).ev ≤ (heapGet heap a).ev
    if topN ≤ positive.length then (heap, positive.take topN)
    else
      let allSorted := results.mergeSort
        fun a b => (heapGet heap b).ev ≤ (heapGet heap a).ev
      let res := fillLoopRef minEdge topN allSorted heap positive
      (res.1, res.2.mergeSort
        fun a b => (heapGet res.1 b).ev ≤ (heapGet res.1 a).ev)

/-! ## Quality filter (src/bovada_filter.py)

The raw provider record, as `_extract_bovada_data` reads it.  The
extraction loop tests `market_type in bovada_bookmaker` for each
supported market type, i.e. it looks the market lists up as direct keys
of the bookmaker dictionary; `h2h`/`spreads`/`totals` are therefore
optional fields of `FBookmaker` (`isSome` = key present). -/

structure FOutcome where
  description : Option String
  price : Option ℚ
  point : Option ℚ
deriving DecidableEq, Repr

structure FBookmaker where
  title : Option String
  last_update : Option String
  h2h : Option (List FOutcome)
  spreads : Option (List FOutcome)
  totals : Option (List FOutcome)
deriving DecidableEq, Repr

structure FRecord where
  id : Option String
  sport_title : Option String
  home_team : Option String
  away_team : Option String
  commence_time : Option String
  bookmakers : List FBookmaker
deriving DecidableEq, Repr

/-- Python truthiness of an optional string: present and non-empty. -/
def truthyS (s : Option String) : Bool :=
  match s with
  | some v => v ≠ ""
  | none => false

/-- Python's `str.lower()` on the ASCII titles involved: lowercase each
character. -/
def pyLower (s : String) : String :=
  String.mk (s.data.map Char.toLower)

/-- `bookmaker.get("title", "").lower() in ["bovada", "bodog"]`
(src/bovada_filter.py:74). -/
def matchesAlias (bk : FBookmaker) : Bool :=
  let t := pyLower (bk.title.getD "")
  t = "bovada" ∨ t = "bodog"

/-- The intermediate `bovada_data` dictionary of
src/bovada_filter.py:82-97. -/
structure BovadaData where
  game_id : Option String
  sport_title : Option String
  home_team : Option String
  away_team : Option String
  commence_time : Option String
  bookmaker : Option String
  last_update : Option String
  h2h : Option (List FOutcome)
  spreads : Option (List FOutcome)
  totals : Option (List FOutcome)
deriving DecidableEq, Repr

/-- `BovadaFilter._extract_bovada_data` (src/bovada_filter.py:61-98):
take the first bookmaker matching the alias set, copy the game fields,
and copy each supported market list present as a direct key of the
bookmaker entry. -/
def extractBovadaData (r : FRecord) : Option BovadaData :=
  match r.bookmakers.find? matchesAlias with
  | none => none
  | some bk =>
    some ⟨r.id, r.sport_title, r.home_team, r.away_team, r.commence_time,
      bk.title, bk.last_update, bk.h2h, bk.spreads, bk.totals⟩

/-- One entry of a normalized odds list (src/bovada_filter.py:151-209):
a label (`team`/`side` from `description`), the odds, and for
spreads/totals the `point`.  The quality filter reads only `odds`. -/
structure NormOutcome where
  label : String
  odds : ℚ
  point : Option ℚ
deriving DecidableEq, Repr

/-- `_normalize_moneyline` (src/bovada_filter.py:135-157): skip outcomes
whose `price` (default 0) is zero. -/
def normalizeMoneyline (data : List FOutcome) : List NormOutcome :=
  data.filterMap fun o =>
    let odds := o.price.getD 0
    if odds = 0 then none
    else some ⟨o.description.getD "", odds, none⟩

/-- `_normalize_spreads` / `_normalize_totals`
(src/bovada_filter.py:159-211): identical skip-zero logic, with the
`point` (default 0) carried along. -/
def normalizeWithPoint (data : List FOutcome) : List NormOutcome :=
  data.filterMap fun o =>
    let odds := o.price.getD 0
    if odds = 0 then none
    else some ⟨o.description.getD "", odds, some (o.point.getD 0)⟩

/-- The `normalized` dictionary of `_normalize_odds`
(src/bovada_filter.py:109-133): game info plus the `odds` mapping, whose
keys `moneyline`/`spreads`/`totals` exist exactly when the corresponding
market was extracted (an extracted-but-empty list still creates the
key). -/
structure NormRecord where
  game_id : Option String
  sport : Option String
  home_team : Option String
  away_team : Option String
  commence_time : Option String
  last_update : Option String
  moneyline : Option (List NormOutcome)
  spreads : Option (List NormOutcome)
  totals : Option (List NormOutcome)
deriving DecidableEq, Repr

/-- The normalized record that `_normalize_odds` builds from record `r`
through its matched bookmaker `bk` (abbreviation used in the theorems;
`normalizeOdds` below is the faithful pipeline stage). -/
def nrOf (r : FRecord) (bk : FBookmaker) : NormRecord :=
  ⟨r.id, r.sport_title, r.home_team, r.away_team, r.commence_time,
    bk.last_update, bk.h2h.map normalizeMoneyline,
    bk.spreads.map normalizeWithPoint, bk.totals.map normalizeWithPoint⟩

/-- `BovadaFilter._normalize_odds` (src/bovada_filter.py:100-133):
returns `none` when no market key was extracted at all (`if
normalized["odds"]:` fails on the empty dict). -/
def normalizeOdds (bd : BovadaData) : Option NormRecord :=
  let nr : NormRecord :=
    ⟨bd.game_id, bd.sport_title, bd.home_team, bd.away_team,
      bd.commence_time, bd.last_update,
      bd.h2h.map normalizeMoneyline,
      bd.spreads.map normalizeWithPoint,
      bd.totals.map normalizeWithPoint⟩
  if nr.moneyline.isSome ∨ nr.spreads.isSome ∨ nr.totals.isSome then some nr
  else none

/-- The surviving outcomes that `_passes_quality_filters` iterates over:
every entry of every present odds list. -/
def survivors (nr : NormRecord) : List NormOutcome :=
  nr.moneyline.getD [] ++ nr.spreads.getD [] ++ nr.totals.getD []

/-- The outcomes that survive normalization of a given bookmaker entry,
expressed on the raw record side. -/
def survivorsBk (bk : FBookmaker) : List NormOutcome :=
  (bk.h2h.map normalizeMoneyline).getD [] ++
    (bk.spreads.map normalizeWithPoint).getD [] ++
    (bk.totals.map normalizeWithPoint).getD []

/-- `BovadaFilter._passes_quality_filters` (src/bovada_filter.py:213-243):
both participant names truthy, and every surviving outcome's odds within
`[-500, 500]` (the configured thresholds) and non-zero. -/
def passesQualityFilters (nr : NormRecord) : Bool :=
  truthyS nr.home_team && truthyS nr.away_team &&
    (survivors nr).all fun o => ¬ (o.odds < -500 ∨ 500 < o.odds) && o.odds ≠ 0

/-- The per-record pipeline of `BovadaFilter.filter_markets`
(src/bovada_filter.py:38-52): extract, normalize, and keep the record
only if it passes the quality filters. -/
def processRecord (r : FRecord) : Option NormRecord :=
  match extractBovadaData r with
  | none => none
  | some bd =>
    match normalizeOdds bd with
    | none => none
    | some nr => if passesQualityFilters nr then some nr else none

/-! ## Concrete instances used by witnesses and counterexamples -/

/-- A game whose only h2h market quotes a single outcome: the fair
probability renormalizes to 1 and `_prob_to_american` divides by zero. -/
def gSingle : Game :=
  ⟨[⟨some "BookA", [⟨"h2h", [⟨some "A", none, some (-110)⟩]⟩]⟩]⟩

/-- The two-bookmaker 2-way example of spec §8.3: −110/−110 and
−120/+100. -/
def gPair : Game :=
  ⟨[⟨some "BookA", [⟨"h2h", [⟨some "A", none, some (-110)⟩,
      ⟨some "B", none, some (-110)⟩]⟩]⟩,
    ⟨some "BookB", [⟨"h2h", [⟨some "A", none, some (-120)⟩,
      ⟨some "B", none, some 100⟩]⟩]⟩]⟩

/-- A game with a spreads market at −105/−115 and no h2h or totals. -/
def gSpro : Game :=
  ⟨[⟨some "X", [⟨"spreads", [⟨some "A", none, some (-105)⟩,
      ⟨some "B", none, some (-115)⟩]⟩]⟩]⟩

/-- The five-candidate list of spec §8.5-8.6, EVs
`[0.10, 0.08, 0.03, 0.01, -0.02]`. -/
def candsFive : List Cand :=
  [⟨1/10, none, 0⟩, ⟨2/25, none, 1⟩, ⟨3/100, none, 2⟩,
   ⟨1/100, none, 3⟩, ⟨-1/50, none, 4⟩]

/-- A record whose only bookmaker is not in the alias set. -/
def recOther : FRecord :=
  ⟨some "id1", some "NBA", some "Lakers", some "Celtics", some "t",
    [⟨some "DraftKings", some "u",
      some [⟨some "Lakers", some (-110), none⟩], none, none⟩]⟩

/-- A Bodog record with the home participant missing. -/
def recNoHome : FRecord :=
  ⟨some "id2", some "NBA", none, some "Celtics", some "t",
    [⟨some "BODOG", some "u",
      some [⟨some "Lakers", some (-110), none⟩], none, none⟩]⟩

/-- A Bovada record with a price outside the ±500 guard band. -/
def recExtreme : FRecord :=
  ⟨some "id3", some "NBA", some "L", some "C", some "t",
    [⟨some "Bovada", some "u",
      some [⟨some "Long", some 600, none⟩], none, none⟩]⟩

/-- A clean Bovada record that passes the whole pipeline. -/
def recGood : FRecord :=
  ⟨some "id4", some "NBA", some "Lakers", some "Celtics", some "t",
    [⟨some "Bovada", some "u",
      some [⟨some "Lakers", some (-110), none⟩,
            ⟨some "Celtics", some (-110), none⟩], none, none⟩]⟩

/-! # Theorems -/

/-- **C1.** For every pair of inputs `(book_odds, fair_odds)`, `calc_ev`
returns `0` when either input is zero or non-numeric, or when the
implied probability of `fair_odds` is not strictly inside `(0,1)`;
otherwise it returns exactly
`fair_prob * profit_per_unit - (1 - fair_prob)` with
`fair_prob = american_to_prob fair_odds` and
`profit_per_unit = book_odds/100` if `book_odds > 0`, else
`100/|book_odds|`  (src/ev_engine.py:144-163). -/
theorem calc_ev_spec (b f : Option ℚ) :
    ((b = none ∨ f = none ∨ b = some 0 ∨ f = some 0) → calc_ev b f = 0) ∧
    (∀ bq fq : ℚ, b = some bq → f = some fq → bq ≠ 0 → fq ≠ 0 →
      (¬ (0 < american_to_prob fq ∧ american_to_prob fq < 1) →
        calc_ev b f = 0) ∧
      ((0 < american_to_prob fq ∧ american_to_prob fq < 1) →
        calc_ev b f = american_to_prob fq *
          (if 0 < bq then bq / 100 else 100 / |bq|) -
          (1 - american_to_prob fq))) := by
  constructor
  · rintro (rfl | rfl | rfl | rfl)
    · cases f <;> simp [calc_ev]
    · cases b <;> simp [calc_ev]
    · cases f <;> simp [calc_ev]
    · cases b <;> simp [calc_ev]
  · rintro bq fq rfl rfl hb hf
    constructor
    · intro hout
      simp only [calc_ev]
      rw [if_neg (by simp [hb, hf])]
      rw [if_pos]
      rcases not_and_or.mp hout with h | h
      · exact Or.inl (not_lt.mp h)
      · exact Or.inr (not_lt.mp h)
    · rintro ⟨h0, h1⟩
      simp only [calc_ev]
      rw [if_neg (by simp [hb, hf])]
      rw [if_neg (by push_neg; exact ⟨h0, h1⟩)]

/-- Witness for C1: `calc_ev 150 100` goes through the main formula and
equals `1/4` (spec §8.4's positive-EV example). -/
theorem calc_ev_spec_witness :
    calc_ev (some 150) (some 100) = 1/4 := by
  have h := ((calc_ev_spec (some 150) (some 100)).2 150 100 rfl rfl
    (by norm_num) (by norm_num)).2
    (by constructor <;> norm_num [american_to_prob])
  rw [h]
  norm_num [american_to_prob]

/-- **C6.** For every American odds value `o` with `|o| ≥ 100` lying on
the same side of the favorite/underdog boundary as the 0.5 split of
`_prob_to_american` (`o < 0` exactly when its implied probability is
`≥ 1/2`), the round trip `_prob_to_american (_american_to_prob o)`
reproduces `o` — exactly, in `ℚ`  (src/ev_engine.py:237-249). -/
theorem round_trip_odds (o : ℚ) (h100 : 100 ≤ |o|)
    (hside : o < 0 ↔ 1/2 ≤ american_to_prob o) :
    prob_to_american (american_to_prob o) = some o := by
  rcases lt_trichotomy o 0 with hneg | hz | hpos
  · have habs : |o| = -o := abs_of_neg hneg
    have hden : (0:ℚ) < -o + 100 := by linarith
    have hp : american_to_prob o = -o / (-o + 100) := by
      rw [american_to_prob, if_neg (by linarith), habs]
    have hhalf : 1/2 ≤ american_to_prob o := hside.mp hneg
    have hlt1 : american_to_prob o < 1 := by
      rw [hp, div_lt_one hden]; linarith
    rw [prob_to_american, if_pos hhalf, if_neg (ne_of_lt hlt1)]
    congr 1
    rw [hp]
    have hne : (-o + 100) ≠ 0 := ne_of_gt hden
    field_simp
    ring
  · rw [hz] at h100; norm_num at h100
  · have habs : |o| = o := abs_of_pos hpos
    have hden : (0:ℚ) < o + 100 := by linarith
    have hp : american_to_prob o = 100 / (o + 100) := by
      rw [american_to_prob, if_pos hpos]
    have hnothalf : ¬ (1/2 ≤ american_to_prob o) := fun hc =>
      absurd (hside.mpr hc) (by linarith)
    have hpos' : 0 < american_to_prob o := by
      rw [hp]; positivity
    rw [prob_to_american, if_neg hnothalf, if_neg (ne_of_gt hpos')]
    congr 1
    rw [hp]
    have hne : (o + 100) ≠ 0 := ne_of_gt hden
    field_simp

/-- Witness for C6: the round trip at `o = −110` (favorite side) and
`o = 150` (underdog side). -/
theorem round_trip_odds_witness :
    prob_to_american (american_to_prob (-110)) = some (-110) ∧
    prob_to_american (american_to_prob 150) = some 150 :=
  ⟨round_trip_odds (-110) (by norm_num)
      (by norm_num [american_to_prob]),
   round_trip_odds 150 (by norm_num)
      (by norm_num [american_to_prob])⟩

/-! ## Helper lemmas about the fair-line estimator -/

/-- Every probability collected by `bookProbs` is strictly positive
(the `if prob > 0` guard of src/ev_engine.py:98). -/
theorem bookProbs_pos (m : EMarket) : ∀ x ∈ bookProbs m, 0 < x.2 := by
  intro x hx
  simp only [bookProbs, List.mem_filterMap] at hx
  obtain ⟨o, _, ho⟩ := hx
  cases hpr : o.price with
  | none => rw [hpr] at ho; exact absurd ho (by simp)
  | some pr =>
    rw [hpr] at ho
    simp only at ho
    split_ifs at ho with h1 h2
    all_goals injection ho with ho'
    rw [← ho']
    exact h2

/-- Every normalized contribution fed into the accumulator is strictly
positive (positive probability divided by a positive total). -/
theorem h2hContribs_pos (g : Game) : ∀ x ∈ h2hContribs g, 0 < x.2 := by
  intro x hx
  simp only [h2hContribs, List.mem_flatMap] at hx
  obtain ⟨bk, -, m, -, hx⟩ := hx
  split_ifs at hx with hk he ht
  · exact absurd hx (by simp)
  · exact absurd hx (by simp)
  · simp only [List.mem_map] at hx
    obtain ⟨y, hy, rfl⟩ := hx
    have hty : 0 < ((bookProbs m).map (·.2)).sum := lt_of_not_le ht
    exact div_pos (bookProbs_pos m y hy) hty
  · exact absurd hx (by simp)

/-- `accumInsert` preserves the accumulator invariant: every entry has a
non-empty, all-positive probability list. -/
theorem accumInsert_good (acc : List (String × List ℚ)) (name : String)
    (p : ℚ) (hp : 0 < p)
    (hacc : ∀ e ∈ acc, e.2 ≠ [] ∧ ∀ q ∈ e.2, 0 < q) :
    ∀ e ∈ accumInsert acc name p, e.2 ≠ [] ∧ ∀ q ∈ e.2, 0 < q := by
  induction acc with
  | nil =>
    intro e he
    simp only [accumInsert, List.mem_singleton] at he
    subst he
    exact ⟨by simp, by simpa using hp⟩
  | cons hd tl ih =>
    obtain ⟨n, ps⟩ := hd
    intro e he
    simp only [accumInsert] at he
    split_ifs at he with hn
    · rcases List.mem_cons.mp he with rfl | htl
      · obtain ⟨h1, h2⟩ := hacc (n, ps) (List.mem_cons_self _ _)
        refine ⟨by simp, ?_⟩
        intro q hq
        rcases List.mem_append.mp hq with h | h
        · exact h2 q h
        · rw [List.mem_singleton.mp h]; exact hp
      · exact hacc e (List.mem_cons_of_mem _ htl)
    · rcases List.mem_cons.mp he with rfl | htl
      · exact hacc _ (List.mem_cons_self _ _)
      · exact ih (fun e' he' => hacc e' (List.mem_cons_of_mem _ he')) e htl

/-- The accumulator invariant holds of the final `outcome_prob_accum`. -/
theorem h2hAccum_good (g : Game) :
    ∀ e ∈ h2hAccum g, e.2 ≠ [] ∧ ∀ q ∈ e.2, 0 < q := by
  rw [h2hAccum]
  have : ∀ (l : List (String × ℚ)) (acc : List (String × List ℚ)),
      (∀ x ∈ l, 0 < x.2) →
      (∀ e ∈ acc, e.2 ≠ [] ∧ ∀ q ∈ e.2, 0 < q) →
      ∀ e ∈ l.foldl (fun a x => accumInsert a x.1 x.2) acc,
        e.2 ≠ [] ∧ ∀ q ∈ e.2, 0 < q := by
    intro l
    induction l with
    | nil => intro acc _ hacc; simpa using hacc
    | cons x xs ih =>
      intro acc hl hacc
      simp only [List.foldl_cons]
      exact ih _ (fun y hy => hl y (List.mem_cons_of_mem _ hy))
        (accumInsert_good acc x.1 x.2 (hl x (List.mem_cons_self _ _)) hacc)
  exact this _ [] (h2hContribs_pos g) (by simp)

/-- With the invariant, the `if probs` guard in the dict comprehension
never filters anything: `averaged` is the plain map of means. -/
theorem averagedOf_eq (g : Game) :
    averagedOf g =
      (h2hAccum g).map fun x => (x.1, x.2.sum / (x.2.length : ℚ)) := by
  rw [averagedOf, List.filter_eq_self.mpr]
  intro e he
  simpa using (h2hAccum_good g e he).1

/-- Every averaged value is strictly positive. -/
theorem averagedOf_pos (g : Game) : ∀ y ∈ averagedOf g, 0 < y.2 := by
  intro y hy
  rw [averagedOf_eq] at hy
  simp only [List.mem_map] at hy
  obtain ⟨x, hx, rfl⟩ := hy
  obtain ⟨hne, hpos⟩ := h2hAccum_good g x hx
  have hlen : 0 < (x.2.length : ℚ) := by
    exact_mod_cast List.length_pos.mpr hne
  exact div_pos (List.sum_pos _ hpos hne) hlen

/-- In a list of at least two positive rationals, every element is
strictly below the total. -/
theorem mem_lt_sum (l : List ℚ) (hpos : ∀ a ∈ l, 0 < a)
    (hlen : 2 ≤ l.length) : ∀ a ∈ l, a < l.sum := by
  intro a ha
  have hperm : List.Perm l (a :: l.erase a) := List.perm_cons_erase ha
  have hsum : l.sum = a + (l.erase a).sum := by
    rw [hperm.sum_eq]; simp
  have hlen' : (l.erase a).length = l.length - 1 :=
    List.length_erase_of_mem ha
  have hne : l.erase a ≠ [] := by
    intro hc
    rw [hc] at hlen'
    simp at hlen'
    omega
  have hpos' : 0 < (l.erase a).sum :=
    List.sum_pos _ (fun b hb => hpos b (List.mem_of_mem_erase hb)) hne
  linarith

/-- `_prob_to_american` does not raise on a probability strictly inside
`(0,1)`. -/
theorem prob_to_american_ok (p : ℚ) (h0 : 0 < p) (h1 : p < 1) :
    prob_to_american p ≠ none := by
  rw [prob_to_american]
  split_ifs with ha hb hc
  · exact absurd hb (ne_of_lt h1)
  · simp
  · exact absurd hc (ne_of_gt h0)
  · simp

/-- The conversion loop succeeds when no entry makes `_prob_to_american`
raise, and its output projects onto the renormalized probabilities. -/
theorem convOutcomes_eq (l : List (String × ℚ)) (T : ℚ)
    (h : ∀ x ∈ l, prob_to_american (x.2 / T) ≠ none) :
    ∃ outs, convOutcomes l T = some outs ∧
      (outs.map fun y => (y.1, y.2.1)) = l.map fun x => (x.1, x.2 / T) := by
  induction l with
  | nil => exact ⟨[], rfl, rfl⟩
  | cons x xs ih =>
    obtain ⟨outs, ho, hm⟩ := ih fun y hy => h y (List.mem_cons_of_mem _ hy)
    cases hpa : prob_to_american (x.2 / T) with
    | none => exact absurd hpa (h x (List.mem_cons_self _ _))
    | some od =>
      refine ⟨(x.1, x.2 / T, od) :: outs, ?_, ?_⟩
      · simp only [convOutcomes, hpa, ho]
      · simpa using hm

/-- Summing a list divided pointwise by `T`. -/
theorem sum_map_div (l : List ℚ) (T : ℚ) :
    (l.map fun a => a / T).sum = l.sum / T := by
  induction l with
  | nil => simp
  | cons a l ih => simp [ih, add_div]

/-- When at least two distinct outcome names accumulate, the h2h block
succeeds: every renormalized probability is strictly inside `(0,1)`, so
`_prob_to_american` never raises, and the outcomes project onto the
renormalized means, which sum to exactly 1. -/
theorem h2hPart_success (g : Game) (h2 : 2 ≤ (h2hAccum g).length) :
    ∃ outs, h2hPart g = some (some outs) ∧
      (outs.map fun y => (y.1, y.2.1)) =
        ((h2hAccum g).map fun x =>
          (x.1, x.2.sum / (x.2.length : ℚ) / totalAvgOf g)) ∧
      (outs.map fun y => y.2.1).sum = 1 := by
  have hlenav : (averagedOf g).length = (h2hAccum g).length := by
    rw [averagedOf_eq, List.length_map]
  have hvalspos : ∀ v ∈ (averagedOf g).map (·.2), 0 < v := by
    intro v hv
    obtain ⟨y, hy, rfl⟩ := List.mem_map.mp hv
    exact averagedOf_pos g y hy
  have hvalslen : 2 ≤ ((averagedOf g).map (·.2)).length := by
    rw [List.length_map, hlenav]; exact h2
  have hvalsne : (averagedOf g).map (·.2) ≠ [] := by
    intro hc
    rw [hc] at hvalslen
    simp at hvalslen
  have hT : 0 < totalAvgOf g :=
    List.sum_pos _ hvalspos hvalsne
  have hok : ∀ x ∈ averagedOf g,
      prob_to_american (x.2 / totalAvgOf g) ≠ none := by
    intro x hx
    have hx2 : 0 < x.2 := averagedOf_pos g x hx
    have hxin : x.2 ∈ (averagedOf g).map (·.2) := List.mem_map.mpr ⟨x, hx, rfl⟩
    have hlt : x.2 < totalAvgOf g :=
      mem_lt_sum _ hvalspos hvalslen _ hxin
    exact prob_to_american_ok _ (div_pos hx2 hT) ((div_lt_one hT).mpr hlt)
  obtain ⟨outs, hconv, hproj⟩ := convOutcomes_eq (averagedOf g) (totalAvgOf g) hok
  have houtslen : outs.length = (averagedOf g).length := by
    have := congrArg List.length hproj
    simpa using this
  have houtsne : ¬ outs.isEmpty := by
    rw [List.isEmpty_iff_length_eq_zero, houtslen, hlenav]
    omega
  have haccne : ¬ (h2hAccum g).isEmpty := by
    rw [List.isEmpty_iff_length_eq_zero]
    omega
  refine ⟨outs, ?_, ?_, ?_⟩
  · rw [h2hPart, if_neg (by simpa using haccne)]
    simp only
    rw [if_pos (show (0:ℚ) < ((averagedOf g).map (·.2)).sum from hT)]
    have hc : convOutcomes (averagedOf g) (((averagedOf g).map (·.2)).sum) =
        some outs := hconv
    rw [hc]
    simp [houtsne]
  · rw [hproj, averagedOf_eq, List.map_map]
    rfl
  · have : (outs.map fun y => y.2.1) =
        (averagedOf g).map fun x => x.2 / totalAvgOf g := by
      have h1 : ((outs.map fun y => (y.1, y.2.1)).map fun p => p.2) =
          ((averagedOf g).map fun x => (x.1, x.2 / totalAvgOf g)).map
            fun p => p.2 := by rw [hproj]
      simpa [List.map_map, Function.comp] using h1
    rw [this]
    have hmd : ((averagedOf g).map fun x => x.2 / totalAvgOf g) =
        ((averagedOf g).map (·.2)).map fun v => v / totalAvgOf g := by
      rw [List.map_map]
      rfl
    rw [hmd, sum_map_div]
    exact div_self (ne_of_gt hT)

/-- **C2.** For every game record accumulating at least two distinct
h2h outcome names with positive implied probabilities, `calc_fair_line`
computes each outcome's fair probability as the arithmetic mean, over
the bookmakers quoting that outcome, of the bookmaker's
overround-normalized implied probability (`h2hAccum` collects the
normalized values, `x.2.sum / x.2.length` is the mean), renormalized by
the total of the means so the fair probabilities sum to exactly 1
(src/ev_engine.py:83-126). -/
theorem fair_line_h2h_mean (g : Game) (h2 : 2 ≤ (h2hAccum g).length) :
    ∃ fl outs, calc_fair_line g = some fl ∧ fl.h2h = some outs ∧
      (outs.map fun y => (y.1, y.2.1)) =
        ((h2hAccum g).map fun x =>
          (x.1, x.2.sum / (x.2.length : ℚ) / totalAvgOf g)) ∧
      (outs.map fun y => y.2.1).sum = 1 := by
  obtain ⟨outs, hpart, hproj, hsum⟩ := h2hPart_success g h2
  refine ⟨⟨some outs,
      if (marketPrices g "spreads").isEmpty then none
        else some ((marketPrices g "spreads").sum /
          ((marketPrices g "spreads").length : ℚ)),
      if (marketPrices g "totals").isEmpty then none
        else some ((marketPrices g "totals").sum /
          ((marketPrices g "totals").length : ℚ))⟩,
    outs, ?_, rfl, hproj, hsum⟩
  rw [calc_fair_line, hpart]

/-- Witness for C2 at the two-bookmaker example of spec §8.3
(−110/−110 and −120/+100). -/
theorem fair_line_h2h_mean_witness :
    ∃ fl outs, calc_fair_line gPair = some fl ∧ fl.h2h = some outs ∧
      (outs.map fun y => (y.1, y.2.1)) =
        ((h2hAccum gPair).map fun x =>
          (x.1, x.2.sum / (x.2.length : ℚ) / totalAvgOf gPair)) ∧
      (outs.map fun y => y.2.1).sum = 1 :=
  fair_line_h2h_mean gPair (by
    norm_num +decide [h2hAccum, h2hContribs, bookProbs, accumInsert,
      american_to_prob, effName, gPair, List.foldl_cons, List.filterMap_cons])

/-- **C5 counterexample.** The claim "calc_fair_line never raises on
division-by-zero-equivalent states; a fair probability of 0 or 1 is
guarded explicitly" is false: on a game whose h2h quotes reduce to a
single outcome name, the renormalized fair probability is exactly 1 and
`_prob_to_american` divides by zero (`(prob/(1-prob))*-100` with
`prob = 1`), so `calc_fair_line` raises `ZeroDivisionError` (modelled
as `none`) instead of omitting the outcome. -/
theorem fair_line_single_outcome_raises : calc_fair_line gSingle = none := by
  norm_num +decide [calc_fair_line, h2hPart, averagedOf, totalAvgOf, h2hAccum,
    h2hContribs, bookProbs, accumInsert, convOutcomes, american_to_prob,
    prob_to_american, effName, gSingle, marketPrices,
    List.foldl_cons, List.foldl_nil, List.filterMap_cons]

/-- **C5 (amended).** For every input game record whose accumulated h2h
outcome set is not a single outcome name, `calc_fair_line` never
raises: an overround sum `≤ 0` and empty probability sets are guarded
explicitly and propagate as omission.  (The unguarded case — a fair
probability of exactly 1, reached when the accumulation holds exactly
one outcome name — raises; see the counterexample.) -/
theorem fair_line_no_raise (g : Game) (h : (h2hAccum g).length ≠ 1) :
    (calc_fair_line g).isSome := by
  rcases Nat.lt_or_ge (h2hAccum g).length 2 with hlt | hge
  · have h0 : (h2hAccum g).length = 0 := by omega
    have hemp : (h2hAccum g).isEmpty := by
      rwa [List.isEmpty_iff_length_eq_zero]
    rw [calc_fair_line, h2hPart, if_pos hemp]
    rfl
  · obtain ⟨outs, hpart, -, -⟩ := h2hPart_success g hge
    rw [calc_fair_line, hpart]
    rfl

/-- Witness for C5 (amended) at the two-bookmaker game of spec §8.3. -/
theorem fair_line_no_raise_witness : (calc_fair_line gPair).isSome :=
  fair_line_no_raise gPair (by
    norm_num +decide [h2hAccum, h2hContribs, bookProbs, accumInsert,
      american_to_prob, effName, gPair, List.foldl_cons, List.filterMap_cons])

/-- **C7.** For every game record, whenever `calc_fair_line` returns,
the spreads and totals fair prices are the arithmetic mean of the raw
American-odds prices across all bookmakers offering that market type,
with no probability normalization; and a market type with zero
qualifying prices is entirely absent from the returned `FairLine`
(src/ev_engine.py:129-142). -/
theorem fair_line_spread_total (g : Game) (fl : FairLine)
    (h : calc_fair_line g = some fl) :
    fl.spreads = (if (marketPrices g "spreads").isEmpty then none
      else some ((marketPrices g "spreads").sum /
        ((marketPrices g "spreads").length : ℚ))) ∧
    fl.totals = (if (marketPrices g "totals").isEmpty then none
      else some ((marketPrices g "totals").sum /
        ((marketPrices g "totals").length : ℚ))) := by
  rw [calc_fair_line] at h
  cases hh : h2hPart g with
  | none => rw [hh] at h; exact absurd h (by simp)
  | some res =>
    rw [hh] at h
    simp only [Option.some.injEq] at h
    subst h
    exact ⟨rfl, rfl⟩

/-- Witness for C7 at a game with one spreads market quoting −105/−115:
the fair spreads price is their mean and totals is absent. -/
theorem fair_line_spread_total_witness :
    (FairLine.mk none (some (-110)) none).spreads =
      (if (marketPrices gSpro "spreads").isEmpty then none
        else some ((marketPrices gSpro "spreads").sum /
          ((marketPrices gSpro "spreads").length : ℚ))) ∧
    (FairLine.mk none (some (-110)) none).totals =
      (if (marketPrices gSpro "totals").isEmpty then none
        else some ((marketPrices gSpro "totals").sum /
          ((marketPrices gSpro "totals").length : ℚ))) :=
  fair_line_spread_total gSpro ⟨none, some (-110), none⟩ (by
    norm_num +decide [calc_fair_line, h2hPart, averagedOf, totalAvgOf,
      h2hAccum, h2hContribs, bookProbs, accumInsert, convOutcomes,
      american_to_prob, prob_to_american, effName, gSpro, marketPrices,
      List.foldl_cons, List.foldl_nil, List.filterMap_cons])

/-! ## Helper lemmas about the opportunity selector -/

theorem sortEvDesc_perm (l : List Cand) : List.Perm (sortEvDesc l) l :=
  List.mergeSort_perm l _

theorem sortEvDesc_length (l : List Cand) : (sortEvDesc l).length = l.length :=
  List.length_mergeSort l

theorem sortEvDesc_mem {c : Cand} {l : List Cand} :
    c ∈ sortEvDesc l ↔ c ∈ l :=
  List.mem_mergeSort

/-- The stable descending sort really sorts by EV descending. -/
theorem sortEvDesc_sorted (l : List Cand) :
    (sortEvDesc l).Pairwise fun a b => b.ev ≤ a.ev := by
  have h := @List.sorted_mergeSort Cand (fun a b => decide (b.ev ≤ a.ev))
    (fun a b c hab hbc => by
      simp only [decide_eq_true_eq] at hab hbc ⊢
      exact le_trans hbc hab)
    (fun a b => by
      simp only [Bool.or_eq_true, decide_eq_true_eq]
      exact le_total b.ev a.ev)
    l
  rw [sortEvDesc]
  exact h.imp fun hab => by simpa using hab

/-- Splitting a candidate list by the `min_edge` test partitions its
length. -/
theorem length_filter_split (l : List Cand) (m : ℚ) :
    (l.filter fun r => m ≤ r.ev).length +
      (l.filter fun r => r.ev < m).length = l.length := by
  induction l with
  | nil => simp
  | cons c l ih =>
    simp only [List.filter_cons, decide_eq_true_eq]
    by_cases h : m ≤ c.ev
    · rw [if_pos h, if_neg (not_lt.mpr h)]
      simp only [List.length_cons]
      omega
    · rw [if_neg h, if_pos (not_le.mp h)]
      simp only [List.length_cons]
      omega

/-- Characterization of the fill loop of src/ev_engine.py:271-277 on
untagged input: provided every qualifying candidate of the walked list
is already present in `out` (Python value equality) and `out` holds only
untagged qualifying candidates or tagged sub-threshold ones, the loop
appends exactly the first `top_n - len(out)` sub-threshold candidates of
the walked list, tagged `fallback = True`. -/
theorem fillLoop_char (minEdge : ℚ) (topN : ℕ) :
    ∀ l out : List Cand,
      (∀ r ∈ l, r.fallback? = none) →
      (∀ r ∈ l, minEdge ≤ r.ev → r ∈ out) →
      (∀ c ∈ out, (minEdge ≤ c.ev ∧ c.fallback? = none) ∨
        (c.ev < minEdge ∧ c.fallback? = some true)) →
      fillLoop minEdge topN l out =
        out ++ ((l.filter fun r => r.ev < minEdge).take
          (topN - out.length)).map tagFallback := by
  intro l
  induction l with
  | nil => intro out _ _ _; simp [fillLoop]
  | cons r rest ih =>
    intro out huntag hqual hinv
    rw [fillLoop]
    by_cases hlen : topN ≤ out.length
    · rw [if_pos hlen, Nat.sub_eq_zero_of_le hlen]
      simp
    · rw [if_neg hlen]
      by_cases hq : minEdge ≤ r.ev
      · rw [if_pos (hqual r (List.mem_cons_self _ _) hq)]
        rw [ih out (fun x hx => huntag x (List.mem_cons_of_mem _ hx))
          (fun x hx => hqual x (List.mem_cons_of_mem _ hx)) hinv]
        rw [List.filter_cons, if_neg (by simpa using not_lt.mpr hq)]
      · push_neg at hq
        have hrnotin : r ∉ out := by
          intro hc
          rcases hinv r hc with ⟨h1, -⟩ | ⟨-, h2⟩
          · exact absurd h1 (not_le.mpr hq)
          · rw [huntag r (List.mem_cons_self _ _)] at h2
            cases h2
        rw [if_neg hrnotin, if_pos hq]
        rw [ih (out ++ [tagFallback r])
          (fun x hx => huntag x (List.mem_cons_of_mem _ hx))
          (fun x hx hxq => List.mem_append_left _
            (hqual x (List.mem_cons_of_mem _ hx) hxq))
          (fun c hc => by
            rcases List.mem_append.mp hc with hc | hc
            · exact hinv c hc
            · rw [List.mem_singleton.mp hc]
              exact Or.inr ⟨hq, rfl⟩)]
        rw [List.filter_cons, if_pos (by simpa using hq)]
        have hk : topN - out.length = (topN - (out.length + 1)) + 1 := by
          omega
        rw [hk, List.take_succ_cons]
        simp [List.append_assoc]

/-- **C4.** For every candidate list of untagged candidates in which at
least `top_n` candidates have EV ≥ `min_edge`, `select_top_bets`
returns exactly the first `top_n` of the qualifying candidates sorted
by EV descending, the result is sorted by EV descending, and none of
the returned entries is tagged fallback (src/ev_engine.py:261-267). -/
theorem select_top_bets_enough (results : List Cand) (minEdge : ℚ)
    (topN : ℕ)
    (huntag : ∀ c ∈ results, c.fallback? = none)
    (henough : topN ≤ (results.filter fun r => minEdge ≤ r.ev).length) :
    select_top_bets results minEdge topN =
      (sortEvDesc (results.filter fun r => minEdge ≤ r.ev)).take topN ∧
    (select_top_bets results minEdge topN).Pairwise
      (fun a b => b.ev ≤ a.ev) ∧
    ∀ c ∈ select_top_bets results minEdge topN,
      minEdge ≤ c.ev ∧ c.fallback? = none := by
  have hsel : select_top_bets results minEdge topN =
      (sortEvDesc (results.filter fun r => minEdge ≤ r.ev)).take topN := by
    rw [select_top_bets]
    by_cases hemp : results.isEmpty
    · rw [if_pos hemp, List.isEmpty_iff.mp hemp]
      simp [sortEvDesc]
    · rw [if_neg hemp]
      simp only
      rw [if_pos (by rwa [sortEvDesc_length])]
  refine ⟨hsel, ?_, ?_⟩
  · rw [hsel]
    exact (sortEvDesc_sorted _).sublist (List.take_sublist _ _)
  · intro c hc
    rw [hsel] at hc
    have hc2 : c ∈ results.filter fun r => minEdge ≤ r.ev :=
      sortEvDesc_mem.mp (List.mem_of_mem_take hc)
    obtain ⟨hcr, hev⟩ := List.mem_filter.mp hc2
    exact ⟨by simpa using hev, huntag c hcr⟩

/-- Witness for C4 at spec §8.5: five candidates with EVs
`[0.10, 0.08, 0.03, 0.01, −0.02]`, `min_edge = 0.02`, `top_n = 2`. -/
theorem select_top_bets_enough_witness :
    select_top_bets candsFive (1/50) 2 =
      (sortEvDesc (candsFive.filter fun r => (1/50 : ℚ) ≤ r.ev)).take 2 ∧
    (select_top_bets candsFive (1/50) 2).Pairwise
      (fun a b => b.ev ≤ a.ev) ∧
    ∀ c ∈ select_top_bets candsFive (1/50) 2,
      (1/50 : ℚ) ≤ c.ev ∧ c.fallback? = none :=
  select_top_bets_enough candsFive (1/50) 2
    (by norm_num +decide [candsFive])
    (by norm_num +decide [candsFive, List.filter_cons])

/-- **C3.** For every list of untagged candidates in which fewer than
`top_n` have EV ≥ `min_edge`, `select_top_bets` returns the qualifying
candidates plus the next-best candidates by EV until `top_n` entries are
reached or the list is exhausted: the result is sorted by EV
descending, has `min top_n (number of candidates)` entries, every
returned candidate below `min_edge` is tagged `fallback = true` while
those at or above `min_edge` carry no tag, every qualifying candidate
is returned, and any sub-threshold candidate left out is no better than
every returned entry (src/ev_engine.py:269-285). -/
theorem select_top_bets_fallback (results : List Cand) (minEdge : ℚ)
    (topN : ℕ)
    (huntag : ∀ c ∈ results, c.fallback? = none)
    (hfew : (results.filter fun r => minEdge ≤ r.ev).length < topN) :
    (select_top_bets results minEdge topN).Pairwise
      (fun a b => b.ev ≤ a.ev) ∧
    (select_top_bets results minEdge topN).length =
      min topN results.length ∧
    (∀ c ∈ select_top_bets results minEdge topN,
      (c.ev < minEdge → c.fallback? = some true) ∧
      (minEdge ≤ c.ev → c.fallback? = none)) ∧
    (∀ c ∈ results, minEdge ≤ c.ev →
      c ∈ select_top_bets results minEdge topN) ∧
    (∀ c ∈ results, c.ev < minEdge →
      tagFallback c ∈ select_top_bets results minEdge topN ∨
      ∀ d ∈ select_top_bets results minEdge topN, c.ev ≤ d.ev) := by
  by_cases hemp : results.isEmpty
  · rw [List.isEmpty_iff.mp hemp]
    simp [select_top_bets]
  · have hposlen :
        (sortEvDesc (results.filter fun r => minEdge ≤ r.ev)).length =
          (results.filter fun r => minEdge ≤ r.ev).length :=
      sortEvDesc_length _
    have hnotTop :
        ¬ topN ≤ (sortEvDesc (results.filter fun r => minEdge ≤ r.ev)).length := by
      rw [hposlen]; omega
    have hseleq : select_top_bets results minEdge topN =
        sortEvDesc (fillLoop minEdge topN (sortEvDesc results)
          (sortEvDesc (results.filter fun r => minEdge ≤ r.ev))) := by
      rw [select_top_bets, if_neg hemp]
      simp only
      rw [if_neg hnotTop]
    have hfill : fillLoop minEdge topN (sortEvDesc results)
        (sortEvDesc (results.filter fun r => minEdge ≤ r.ev)) =
        sortEvDesc (results.filter fun r => minEdge ≤ r.ev) ++
          (((sortEvDesc results).filter fun r => r.ev < minEdge).take
            (topN -
              (sortEvDesc (results.filter fun r => minEdge ≤ r.ev)).length)).map
            tagFallback := by
      apply fillLoop_char
      · intro r hr
        exact huntag r (sortEvDesc_mem.mp hr)
      · intro r hr hq
        exact sortEvDesc_mem.mpr
          (List.mem_filter.mpr ⟨sortEvDesc_mem.mp hr, by simpa using hq⟩)
      · intro c hc
        obtain ⟨hcr, hev⟩ := List.mem_filter.mp (sortEvDesc_mem.mp hc)
        exact Or.inl ⟨by simpa using hev, huntag c hcr⟩
    have hselperm : List.Perm (select_top_bets results minEdge topN)
        (sortEvDesc (results.filter fun r => minEdge ≤ r.ev) ++
          (((sortEvDesc results).filter fun r => r.ev < minEdge).take
            (topN -
              (sortEvDesc (results.filter fun r => minEdge ≤ r.ev)).length)).map
            tagFallback) := by
      rw [hseleq, hfill]
      exact sortEvDesc_perm _
    have hFlen : ((sortEvDesc results).filter fun r => r.ev < minEdge).length =
        (results.filter fun r => r.ev < minEdge).length :=
      (List.Perm.filter _ (sortEvDesc_perm results)).length_eq
    have hFsorted : ((sortEvDesc results).filter fun r => r.ev < minEdge).Pairwise
        (fun a b => b.ev ≤ a.ev) :=
      (sortEvDesc_sorted results).filter _
    refine ⟨?_, ?_, ?_, ?_, ?_⟩
    · rw [hseleq]
      exact sortEvDesc_sorted _
    · rw [hselperm.length_eq]
      rw [List.length_append, List.length_map, List.length_take, hFlen,
        hposlen]
      have hsplit := length_filter_split results minEdge
      omega
    · intro c hc
      rcases List.mem_append.mp (hselperm.mem_iff.mp hc) with hc | hc
      · obtain ⟨hcr, hev⟩ := List.mem_filter.mp (sortEvDesc_mem.mp hc)
        have hq : minEdge ≤ c.ev := by simpa using hev
        exact ⟨fun hlt => absurd hq (not_le.mpr hlt),
          fun _ => huntag c hcr⟩
      · obtain ⟨r, hr, rfl⟩ := List.mem_map.mp hc
        obtain ⟨-, hev⟩ := List.mem_filter.mp (List.mem_of_mem_take hr)
        have hlt : r.ev < minEdge := by simpa using hev
        exact ⟨fun _ => rfl, fun hge => absurd hge (not_le.mpr hlt)⟩
    · intro c hcr hq
      refine hselperm.mem_iff.mpr (List.mem_append_left _ ?_)
      exact sortEvDesc_mem.mpr (List.mem_filter.mpr ⟨hcr, by simpa using hq⟩)
    · intro c hcr hlt
      have hcF : c ∈ (sortEvDesc results).filter fun r => r.ev < minEdge :=
        List.mem_filter.mpr ⟨sortEvDesc_mem.mpr hcr, by simpa using hlt⟩
      rw [← List.take_append_drop
        (topN - (sortEvDesc (results.filter fun r => minEdge ≤ r.ev)).length)
        ((sortEvDesc results).filter fun r => r.ev < minEdge)] at hcF
      rcases List.mem_append.mp hcF with htake | hdrop
      · exact Or.inl (hselperm.mem_iff.mpr (List.mem_append_right _
          (List.mem_map_of_mem _ htake)))
      · refine Or.inr fun d hd => ?_
        rcases List.mem_append.mp (hselperm.mem_iff.mp hd) with hd | hd
        · obtain ⟨-, hev⟩ := List.mem_filter.mp (sortEvDesc_mem.mp hd)
          have : minEdge ≤ d.ev := by simpa using hev
          linarith
        · obtain ⟨e, he, rfl⟩ := List.mem_map.mp hd
          have hpw := hFsorted
          rw [← List.take_append_drop
            (topN -
              (sortEvDesc (results.filter fun r => minEdge ≤ r.ev)).length)
            ((sortEvDesc results).filter fun r => r.ev < minEdge)] at hpw
          have hrel := (List.pairwise_append.mp hpw).2.2 e he c hdrop
          exact hrel

/-- Witness for C3 at spec §8.6: five candidates with EVs
`[0.10, 0.08, 0.03, 0.01, −0.02]`, `min_edge = 0.02`, `top_n = 4`. -/
theorem select_top_bets_fallback_witness :
    (select_top_bets candsFive (1/50) 4).Pairwise
      (fun a b => b.ev ≤ a.ev) ∧
    (select_top_bets candsFive (1/50) 4).length =
      min 4 candsFive.length ∧
    (∀ c ∈ select_top_bets candsFive (1/50) 4,
      (c.ev < (1/50 : ℚ) → c.fallback? = some true) ∧
      ((1/50 : ℚ) ≤ c.ev → c.fallback? = none)) ∧
    (∀ c ∈ candsFive, (1/50 : ℚ) ≤ c.ev →
      c ∈ select_top_bets candsFive (1/50) 4) ∧
    (∀ c ∈ candsFive, c.ev < (1/50 : ℚ) →
      tagFallback c ∈ select_top_bets candsFive (1/50) 4 ∨
      ∀ d ∈ select_top_bets candsFive (1/50) 4, c.ev ≤ d.ev) :=
  select_top_bets_fallback candsFive (1/50) 4
    (by norm_num +decide [candsFive])
    (by norm_num +decide [candsFive, List.filter_cons])

/-- Permuting the tagged sub-threshold candidates back through the
untouched qualifying ones reassembles the tagged image of the whole
list. -/
theorem filter_append_tag_perm (l : List Cand) (m : ℚ) :
    List.Perm ((l.filter fun r => m ≤ r.ev) ++
      ((l.filter fun r => r.ev < m).map tagFallback))
      (l.map fun c => if c.ev < m then tagFallback c else c) := by
  induction l with
  | nil => simp
  | cons c l ih =>
    simp only [List.filter_cons, decide_eq_true_eq, List.map_cons]
    by_cases h : m ≤ c.ev
    · simp only [if_pos h, if_neg (not_lt.mpr h), List.cons_append]
      exact ih.cons c
    · simp only [if_neg h, if_pos (not_le.mp h), List.map_cons]
      exact List.Perm.trans List.perm_middle (ih.cons _)

/-- **C9.** For every list of untagged candidates containing fewer than
`top_n` candidates in total, `select_top_bets` returns all of them —
up to the fallback tagging of sub-threshold entries — with no padding
and no duplication (a permutation of the tagged image of the input);
and for the empty candidate list and any `min_edge` and `top_n`, it
returns the empty list (src/ev_engine.py:261-277). -/
theorem select_top_bets_few_total :
    (∀ (results : List Cand) (minEdge : ℚ) (topN : ℕ),
      (∀ c ∈ results, c.fallback? = none) →
      results.length < topN →
      List.Perm (select_top_bets results minEdge topN)
        (results.map fun c =>
          if c.ev < minEdge then tagFallback c else c)) ∧
    ∀ (minEdge : ℚ) (topN : ℕ), select_top_bets [] minEdge topN = [] := by
  constructor
  · intro results minEdge topN huntag hfew
    by_cases hemp : results.isEmpty
    · rw [List.isEmpty_iff.mp hemp]
      simp [select_top_bets]
    · have hple : (results.filter fun r => minEdge ≤ r.ev).length ≤
          results.length := List.length_filter_le _ _
      have hfewq : (results.filter fun r => minEdge ≤ r.ev).length < topN := by
        omega
      have hposlen :
          (sortEvDesc (results.filter fun r => minEdge ≤ r.ev)).length =
            (results.filter fun r => minEdge ≤ r.ev).length :=
        sortEvDesc_length _
      have hnotTop :
          ¬ topN ≤ (sortEvDesc (results.filter fun r => minEdge ≤ r.ev)).length := by
        rw [hposlen]; omega
      have hseleq : select_top_bets results minEdge topN =
          sortEvDesc (fillLoop minEdge topN (sortEvDesc results)
            (sortEvDesc (results.filter fun r => minEdge ≤ r.ev))) := by
        rw [select_top_bets, if_neg hemp]
        simp only
        rw [if_neg hnotTop]
      have hfill : fillLoop minEdge topN (sortEvDesc results)
          (sortEvDesc (results.filter fun r => minEdge ≤ r.ev)) =
          sortEvDesc (results.filter fun r => minEdge ≤ r.ev) ++
            (((sortEvDesc results).filter fun r => r.ev < minEdge).take
              (topN -
                (sortEvDesc (results.filter fun r => minEdge ≤ r.ev)).length)).map
              tagFallback := by
        apply fillLoop_char
        · intro r hr
          exact huntag r (sortEvDesc_mem.mp hr)
        · intro r hr hq
          exact sortEvDesc_mem.mpr
            (List.mem_filter.mpr ⟨sortEvDesc_mem.mp hr, by simpa using hq⟩)
        · intro c hc
          obtain ⟨hcr, hev⟩ := List.mem_filter.mp (sortEvDesc_mem.mp hc)
          exact Or.inl ⟨by simpa using hev, huntag c hcr⟩
      have hFlen :
          ((sortEvDesc results).filter fun r => r.ev < minEdge).length =
            (results.filter fun r => r.ev < minEdge).length :=
        (List.Perm.filter _ (sortEvDesc_perm results)).length_eq
      have hsplit := length_filter_split results minEdge
      have htakeall :
          (((sortEvDesc results).filter fun r => r.ev < minEdge).take
            (topN -
              (sortEvDesc (results.filter fun r => minEdge ≤ r.ev)).length)) =
          ((sortEvDesc results).filter fun r => r.ev < minEdge) := by
        apply List.take_of_length_le
        rw [hFlen, hposlen]
        omega
      rw [hseleq, hfill, htakeall]
      refine List.Perm.trans (sortEvDesc_perm _) ?_
      refine List.Perm.trans
        (List.Perm.append (sortEvDesc_perm _)
          (List.Perm.map tagFallback
            (List.Perm.filter _ (sortEvDesc_perm results)))) ?_
      exact filter_append_tag_perm results minEdge
  · intro minEdge topN
    simp [select_top_bets]

/-- Witness for C9: a two-candidate list with `top_n = 5` is returned
whole (the sub-threshold entry tagged), and the empty list yields the
empty list. -/
theorem select_top_bets_few_total_witness :
    List.Perm (select_top_bets [⟨3/100, none, 0⟩, ⟨1/100, none, 1⟩] (1/50) 5)
      ([⟨3/100, none, 0⟩, ⟨1/100, none, 1⟩].map fun c =>
        if c.ev < (1/50 : ℚ) then tagFallback c else c) ∧
    select_top_bets [] (1/50) 5 = [] :=
  ⟨select_top_bets_few_total.1 [⟨3/100, none, 0⟩, ⟨1/100, none, 1⟩] (1/50) 5
      (by norm_num +decide) (by norm_num),
    select_top_bets_few_total.2 (1/50) 5⟩

/-- The fill loop only ever extends the heap: the source's
`r = {**r, "fallback": True}` allocates a fresh dictionary and never
assigns into an existing one. -/
theorem fillLoopRef_heap_grows (minEdge : ℚ) (topN : ℕ) :
    ∀ (l : List ℕ) (heap : List Cand) (out : List ℕ),
      heap.IsPrefix (fillLoopRef minEdge topN l heap out).1 := by
  intro l
  induction l with
  | nil =>
    intro heap out
    rw [fillLoopRef]
  | cons a rest ih =>
    intro heap out
    rw [fillLoopRef]
    by_cases h1 : topN ≤ out.length
    · rw [if_pos h1]
    · rw [if_neg h1]
      by_cases h2 : heapGet heap a ∈ out.map (heapGet heap)
      · rw [if_pos h2]
        exact ih heap out
      · rw [if_neg h2]
        by_cases h3 : (heapGet heap a).ev < minEdge
        · rw [if_pos h3]
          exact List.IsPrefix.trans (List.prefix_append _ _) (ih _ _)
        · rw [if_neg h3]
          exact ih heap (out ++ [a])

/-- **C10.** For every heap of candidate dictionaries and every caller
list of references into it, `select_top_bets` leaves the caller's
dictionaries unmodified: every heap cell that existed before the call
holds the same dictionary afterwards, because the fallback tag is set
on a freshly allocated copy (`{**r, "fallback": True}`) rather than on
the input object (src/ev_engine.py:269-277). -/
theorem select_top_bets_ref_frame (heap : List Cand) (results : List ℕ)
    (minEdge : ℚ) (topN : ℕ) (a : ℕ) (ha : a < heap.length) :
    ((selectTopBetsRef heap results minEdge topN).1).get? a =
      heap.get? a := by
  rw [selectTopBetsRef]
  by_cases hemp : results.isEmpty
  · rw [if_pos hemp]
  · rw [if_neg hemp]
    simp only
    by_cases htop : topN ≤
        ((results.filter fun x =>
          decide (minEdge ≤ (heapGet heap x).ev)).mergeSort fun x y =>
            decide ((heapGet heap y).ev ≤ (heapGet heap x).ev)).length
    · rw [if_pos htop]
    · rw [if_neg htop]
      obtain ⟨t, ht⟩ := fillLoopRef_heap_grows minEdge topN
        (results.mergeSort fun x y =>
          decide ((heapGet heap y).ev ≤ (heapGet heap x).ev)) heap
        ((results.filter fun x =>
          decide (minEdge ≤ (heapGet heap x).ev)).mergeSort fun x y =>
            decide ((heapGet heap y).ev ≤ (heapGet heap x).ev))
      simp only
      rw [← ht, List.get?_append ha]

/-- Witness for C10: the five-candidate heap with `top_n = 4` (the run
that allocates a tagged copy) leaves cell 3 unchanged. -/
theorem select_top_bets_ref_frame_witness :
    ((selectTopBetsRef candsFive [0, 1, 2, 3, 4] (1/50) 4).1).get? 3 =
      candsFive.get? 3 :=
  select_top_bets_ref_frame candsFive [0, 1, 2, 3, 4] (1/50) 4 3
    (by norm_num [candsFive])

/-- Once the alias-matched bookmaker is found, the whole pipeline is
the normalization of that bookmaker's markets followed by the quality
gate. -/
theorem processRecord_found (r : FRecord) (bk : FBookmaker)
    (hfind : r.bookmakers.find? matchesAlias = some bk) :
    processRecord r =
      if (bk.h2h.map normalizeMoneyline).isSome ∨
          (bk.spreads.map normalizeWithPoint).isSome ∨
          (bk.totals.map normalizeWithPoint).isSome then
        (if passesQualityFilters (nrOf r bk) then some (nrOf r bk) else none)
      else none := by
  have hbd : extractBovadaData r = some
      ⟨r.id, r.sport_title, r.home_team, r.away_team, r.commence_time,
        bk.title, bk.last_update, bk.h2h, bk.spreads, bk.totals⟩ := by
    rw [extractBovadaData, hfind]
  have hstep : processRecord r =
      match normalizeOdds
          ⟨r.id, r.sport_title, r.home_team, r.away_team, r.commence_time,
            bk.title, bk.last_update, bk.h2h, bk.spreads, bk.totals⟩ with
        | none => none
        | some nr =>
          if passesQualityFilters nr then some nr else none := by
    rw [processRecord, hbd]
  have hno : normalizeOdds
      ⟨r.id, r.sport_title, r.home_team, r.away_team, r.commence_time,
        bk.title, bk.last_update, bk.h2h, bk.spreads, bk.totals⟩ =
      if (bk.h2h.map normalizeMoneyline).isSome ∨
          (bk.spreads.map normalizeWithPoint).isSome ∨
          (bk.totals.map normalizeWithPoint).isSome then
        some (nrOf r bk)
      else none := rfl
  rw [hstep, hno]
  by_cases hcond : (bk.h2h.map normalizeMoneyline).isSome ∨
      (bk.spreads.map normalizeWithPoint).isSome ∨
      (bk.totals.map normalizeWithPoint).isSome
  · rw [if_pos hcond, if_pos hcond]
  · rw [if_neg hcond, if_neg hcond]

/-- **C8.** For every raw provider record, the quality filter locates
the target bookmaker by case-insensitive match against the alias set
`{bovada, bodog}` (no match ⇒ the record is dropped); on a match, a
surviving record is exactly the normalization of that bookmaker's
supported markets (`h2h`/`spreads`/`totals`, with zero-price outcomes
discarded by `normalizeMoneyline`/`normalizeWithPoint`), both
participant names are present, and every surviving price is non-zero
and within the ±500 guard band; a record with a missing participant or
any surviving price below −500 or above +500 is rejected whole
(src/bovada_filter.py:61-98, 213-243). -/
theorem quality_filter_spec (r : FRecord) :
    (r.bookmakers.find? matchesAlias = none → processRecord r = none) ∧
    (∀ bk nr, r.bookmakers.find? matchesAlias = some bk →
      processRecord r = some nr →
      nr = nrOf r bk ∧
      truthyS nr.home_team ∧ truthyS nr.away_team ∧
      ∀ o ∈ survivors nr, o.odds ≠ 0 ∧ -500 ≤ o.odds ∧ o.odds ≤ 500) ∧
    ((¬ truthyS r.home_team ∨ ¬ truthyS r.away_team) →
      processRecord r = none) ∧
    (∀ bk, r.bookmakers.find? matchesAlias = some bk →
      (∃ o ∈ survivorsBk bk, o.odds < -500 ∨ 500 < o.odds) →
      processRecord r = none) := by
  refine ⟨?_, ?_, ?_, ?_⟩
  · intro hfind
    rw [processRecord, extractBovadaData, hfind]
  · intro bk nr hfind hnr
    rw [processRecord_found r bk hfind] at hnr
    split_ifs at hnr with h1 h2
    · have hnr' : nr = nrOf r bk := (Option.some.injEq _ _ ▸ hnr).symm
      subst hnr'
      refine ⟨rfl, ?_, ?_, ?_⟩
      · have := (Bool.and_eq_true _ _).mp
          ((Bool.and_eq_true _ _).mp h2).1
        exact this.1
      · have := (Bool.and_eq_true _ _).mp
          ((Bool.and_eq_true _ _).mp h2).1
        exact this.2
      · intro o ho
        have hall := ((Bool.and_eq_true _ _).mp h2).2
        rw [List.all_eq_true] at hall
        have ho' := hall o ho
        rw [Bool.and_eq_true, decide_eq_true_eq, decide_eq_true_eq] at ho'
        obtain ⟨hband, hzero⟩ := ho'
        push_neg at hband
        exact ⟨hzero, hband.1, hband.2⟩
  · intro hbad
    cases hfind : r.bookmakers.find? matchesAlias with
    | none => rw [processRecord, extractBovadaData, hfind]
    | some bk =>
      rw [processRecord_found r bk hfind]
      by_cases h1 : (bk.h2h.map normalizeMoneyline).isSome ∨
          (bk.spreads.map normalizeWithPoint).isSome ∨
          (bk.totals.map normalizeWithPoint).isSome
      · rw [if_pos h1, if_neg]
        intro h2
        have hht := (Bool.and_eq_true _ _).mp
          ((Bool.and_eq_true _ _).mp h2).1
        rcases hbad with hb | hb
        · exact hb hht.1
        · exact hb hht.2
      · rw [if_neg h1]
  · intro bk hfind hex
    rw [processRecord_found r bk hfind]
    by_cases h1 : (bk.h2h.map normalizeMoneyline).isSome ∨
        (bk.spreads.map normalizeWithPoint).isSome ∨
        (bk.totals.map normalizeWithPoint).isSome
    · rw [if_pos h1, if_neg]
      intro h2
      have hall := ((Bool.and_eq_true _ _).mp h2).2
      rw [List.all_eq_true] at hall
      obtain ⟨o, ho, hbad⟩ := hex
      have ho' := hall o ho
      rw [Bool.and_eq_true, decide_eq_true_eq] at ho'
      exact ho'.1 hbad
    · rw [if_neg h1]

/-- Witness for C8: a record with no alias-matching bookmaker is
dropped; a Bodog record with a missing home participant is rejected; a
Bovada record quoting +600 (outside the ±500 band) is rejected; a clean
Bovada record passes with its normalized markets. -/
theorem quality_filter_spec_witness :
    processRecord recOther = none ∧
    processRecord recNoHome = none ∧
    processRecord recExtreme = none ∧
    (recGood.bookmakers.find? matchesAlias = some
      ⟨some "Bovada", some "u",
        some [⟨some "Lakers", some (-110), none⟩,
              ⟨some "Celtics", some (-110), none⟩], none, none⟩) :=
  ⟨(quality_filter_spec recOther).1 (by norm_num +decide [recOther,
      matchesAlias, List.find?]),
    (quality_filter_spec recNoHome).2.2.1 (Or.inl (by
      norm_num +decide [recNoHome, truthyS])),
    (quality_filter_spec recExtreme).2.2.2
      ⟨some "Bovada", some "u",
        some [⟨some "Long", some 600, none⟩], none, none⟩
      (by norm_num +decide [recExtreme, matchesAlias, List.find?])
      ⟨⟨"Long", 600, none⟩,
        by norm_num +decide [survivorsBk, normalizeMoneyline],
        by norm_num⟩,
    by norm_num +decide [recGood, matchesAlias, List.find?]⟩

end BovadaEV
